import Mathlib

/-!
Caption naming and reconciliation (`pkg/scene/caption.go`).

A shallow embedding of the caption helpers of `pkg/scene/caption.go` and of the
few Go standard-library functions they call (`filepath.Ext`,
`strings.TrimSuffix`, `strings.Split`), followed by theorems about them.

Go strings are byte sequences, so a string is a list of bytes and `len` is the
list length.  The three collaborators that live outside the package are
parameters of the embedding:

* `os : GOOS` fixes `os.IsPathSeparator`;
* `valid : GoString → Bool` stands for `IsValidLanguage` (`language.ParseBase`
  returning no error);
* `stat : GoString → Bool` stands for `os.Stat` returning no error.
-/

namespace Caption

/-- A Go `string`: an immutable sequence of bytes. -/
abbrev GoString := List UInt8

/-- The bytes (UTF-8) of a string literal. -/
def str (s : String) : GoString := s.toUTF8.data.toList

/-- The target operating system, which decides what a path separator is. -/
inductive GOOS where
  | unix
  | windows
  deriving DecidableEq

/-- Go `os.IsPathSeparator`: the slash (byte 47) everywhere, and also the
backslash (byte 92) on Windows. -/
def IsPathSeparator (os : GOOS) (c : UInt8) : Bool :=
  match os with
  | GOOS.unix => c == 47
  | GOOS.windows => c == 92 || c == 47

/-- The loop of `filepath.Ext`: `i + 1` is the number of bytes still to scan,
so the byte looked at is `path[i]`, and the scan runs from the end of the path
towards its start. -/
def extLoop (os : GOOS) (path : GoString) : Nat → GoString
  | 0 => []
  | i + 1 =>
    match path[i]? with
    | none => []
    | some c =>
      if IsPathSeparator os c then []
      else if c = 46 then path.drop i
      else extLoop os path i

/-- Go `filepath.Ext`: the suffix beginning at the final dot in the final element
of the path, empty if there is no dot. -/
def Ext (os : GOOS) (path : GoString) : GoString :=
  extLoop os path path.length

/-- Go `strings.HasSuffix`. -/
def HasSuffix (s suffix : GoString) : Bool :=
  decide (suffix.length ≤ s.length) && (s.drop (s.length - suffix.length) == suffix)

/-- Go `strings.TrimSuffix`. -/
def TrimSuffix (s suffix : GoString) : GoString :=
  if HasSuffix s suffix then s.take (s.length - suffix.length) else s

/-- Go `strings.Split` for a separator of one byte: the pieces of `s` between the
occurrences of `sep`; a string without `sep` (the empty one too) gives one
piece. -/
def Split : GoString → UInt8 → List GoString
  | [], _ => [[]]
  | c :: cs, sep =>
    if c = sep then [] :: Split cs sep
    else
      match Split cs sep with
      | [] => [[c]]
      | piece :: pieces => (c :: piece) :: pieces

/-- Variable `CaptionExts`: vtt has priority over srt. -/
def CaptionExts : List GoString := [str "vtt", str "srt"]

/-- Constant `CaptionSep`, the one-byte string of the bar (byte 124). -/
def CaptionSep : UInt8 := 124

/-- Constant `LangUknown`, the token `00`. -/
def LangUknown : GoString := str "00"

/-- Function `GetCaptionPath`: the path of a caption from a file path, the
wanted language and the caption suffix. -/
def GetCaptionPath (os : GOOS) (path lang suffix : GoString) : GoString :=
  let ext := Ext os path
  let fn := TrimSuffix path ext
  let captionExt :=
    if lang.length = 0 ∨ lang = LangUknown then suffix
    else lang ++ str "." ++ suffix
  fn ++ str "." ++ captionExt

/-- Function `IsLangInCaptions`: whether `lang` is one of the pieces of
`captions`. -/
def IsLangInCaptions (lang captions : GoString) : Bool :=
  (Split captions CaptionSep).any (fun l => l == lang)

/-- Function `AddLangToCaptions`: `captions` with `lang` appended, no duplicate
check. -/
def AddLangToCaptions (lang captions : GoString) : GoString :=
  if lang = [] then captions
  else if captions.length > 0 then captions ++ ([CaptionSep] ++ lang)
  else lang

/-- Function `GenerateCaptionCandidates`: the caption base name, stripped of a
valid language segment, with each of `exts` as extension. -/
def GenerateCaptionCandidates (os : GOOS) (valid : GoString → Bool)
    (captionPath : GoString) (exts : List GoString) : List GoString :=
  let basename := TrimSuffix captionPath (Ext os captionPath)
  let languageExt := Ext os basename
  let basename :=
    if languageExt.length > 2 ∧ valid (languageExt.drop 1) = true then
      TrimSuffix basename languageExt
    else basename
  exts.foldl (fun candidates ext => candidates ++ [basename ++ str "." ++ ext]) []

/-- Function `GetCaptionsLangFromPath`: the language code of a caption path,
`LangUknown` when it has no valid one. -/
def GetCaptionsLangFromPath (os : GOOS) (valid : GoString → Bool)
    (captionPath : GoString) : GoString :=
  let basename := TrimSuffix captionPath (Ext os captionPath)
  let languageExt := Ext os basename
  if languageExt.length > 2 ∧ valid (languageExt.drop 1) = true then
    languageExt.drop 1
  else LangUknown

/-- The state of the loops of `CleanCaptions`: its two named results, the
`found` flag of the current language, and the paths handed to `os.Stat` so
far (the latter is bookkeeping of the embedding, the code keeps no such list). -/
structure CleanState where
  cleanedCaptions : GoString
  changed : Bool
  found : Bool
  probed : List GoString

/-- The inner loop of `CleanCaptions`, over the extensions still to try for the
language `l`.  A successful `os.Stat` adds the language and breaks. -/
def cleanExts (os : GOOS) (stat : GoString → Bool) (fn l : GoString) :
    List GoString → CleanState → CleanState
  | [], st => st
  | e :: es, st =>
    let f := GetCaptionPath os fn l e
    let st := { st with probed := st.probed ++ [f] }
    if stat f then
      { st with cleanedCaptions := AddLangToCaptions l st.cleanedCaptions, found := true }
    else
      let st := if !st.found then { st with changed := true } else st
      cleanExts os stat fn l es st

/-- The outer loop of `CleanCaptions`, over the languages still to check. -/
def cleanLangs (os : GOOS) (stat : GoString → Bool) (fn : GoString) :
    List GoString → CleanState → CleanState
  | [], st => st
  | l :: ls, st =>
    cleanLangs os stat fn ls (cleanExts os stat fn l CaptionExts { st with found := false })

/-- The final loop state of `CleanCaptions`. -/
def cleanRun (os : GOOS) (stat : GoString → Bool) (fn captions : GoString) : CleanState :=
  cleanLangs os stat fn (Split captions CaptionSep)
    { cleanedCaptions := [], changed := false, found := false, probed := [] }

/-- Function `CleanCaptions`: the cleaned caption set and the changed flag. -/
def CleanCaptions (os : GOOS) (stat : GoString → Bool) (fn captions : GoString) :
    GoString × Bool :=
  let st := cleanRun os stat fn captions
  (st.cleanedCaptions, st.changed)

/-- The paths `CleanCaptions` hands to `os.Stat`, in order. -/
def CleanCaptionsProbes (os : GOOS) (stat : GoString → Bool) (fn captions : GoString) :
    List GoString :=
  (cleanRun os stat fn captions).probed

/-! ## Reference notions used to state the properties -/

/-- A byte is an ASCII letter. -/
def isAsciiLetter (c : UInt8) : Bool :=
  (decide (65 ≤ c.toNat) && decide (c.toNat ≤ 90)) ||
    (decide (97 ≤ c.toNat) && decide (c.toNat ≤ 122))

/-- A string of 2 or 3 ASCII letters: the only shape a language validator
accepts. -/
def isLangShape (s : GoString) : Bool :=
  (decide (s.length = 2) || decide (s.length = 3)) && s.all isAsciiLetter

/-- A sample validator that accepts every string of 2 or 3 ASCII letters. -/
def shapeValidator : GoString → Bool := isLangShape

/-- A sample validator that accepts the code `en` only. -/
def enValidator (s : GoString) : Bool := s == str "en"

/-- A string holds neither a dot nor a path separator. -/
def plainSegment (os : GOOS) (s : GoString) : Prop :=
  ∀ c ∈ s, c ≠ 46 ∧ IsPathSeparator os c = false

instance (os : GOOS) (s : GoString) : Decidable (plainSegment os s) :=
  inferInstanceAs (Decidable (∀ c ∈ s, c ≠ 46 ∧ IsPathSeparator os c = false))

/-- A filesystem holding exactly the listed paths. -/
def onlyFiles (files : List GoString) : GoString → Bool :=
  fun f => files.contains f

/-- Go `strings.Join` with a separator of one byte. -/
def Join : List GoString → UInt8 → GoString
  | [], _ => []
  | [a], _ => a
  | a :: b :: rest, sep => a ++ sep :: Join (b :: rest) sep

/-- The final element of a path: what follows its last path separator. -/
def lastElement (os : GOOS) (p : GoString) : GoString :=
  (p.reverse.takeWhile (fun c => !IsPathSeparator os c)).reverse

/-- The extension of a path in words: the part of its final element from the
last dot onward, or nothing when that element has no dot. -/
def extensionOf (os : GOOS) (p : GoString) : GoString :=
  let e := lastElement os p
  if 46 ∈ e then 46 :: (e.reverse.takeWhile (fun c => c != 46)).reverse else []

/-- A path with its extension removed. -/
def baseOf (os : GOOS) (p : GoString) : GoString :=
  p.take (p.length - (extensionOf os p).length)

/-- The language `l` of the media file `fn` has a caption file under at least
one of the supported extensions. -/
def backed (os : GOOS) (stat : GoString → Bool) (fn l : GoString) : Bool :=
  CaptionExts.any (fun e => stat (GetCaptionPath os fn l e))

/-- The segment lying between the last two dots of the final element of a
path, when that element has at least two dots. -/
def langSegment (os : GOOS) (c : GoString) : Option GoString :=
  let parts := Split (lastElement os c) 46
  if 3 ≤ parts.length then parts[parts.length - 2]? else none

/-- The detected language in words: the segment between the last two dots of
the final element when it has at least 2 bytes and the validator accepts it,
the unknown token in every other case. -/
def detectedLang (os : GOOS) (valid : GoString → Bool) (c : GoString) : GoString :=
  match langSegment os c with
  | some s => if 2 ≤ s.length ∧ valid s = true then s else LangUknown
  | none => LangUknown

/-- The common base of the candidates in words: the caption path without its
final extension, and without the trailing dot and detected language when a
language is detected. -/
def strippedBase (os : GOOS) (valid : GoString → Bool) (c : GoString) : GoString :=
  let s := TrimSuffix c (Ext os c)
  let lang := GetCaptionsLangFromPath os valid c
  if lang = LangUknown then s else TrimSuffix s (str "." ++ lang)

/-- A well-formed caption set: the empty string, or codes joined by the
separator with no empty piece, that is no leading, trailing or doubled
separator. -/
def isWellFormedSet (captions : GoString) : Bool :=
  captions == [] || (Split captions CaptionSep).all (fun l => l != [])

/-- The codes of a caption set: none for the empty string, the pieces between
the separators otherwise. -/
def codesOf (captions : GoString) : List GoString :=
  if captions = [] then [] else Split captions CaptionSep

/-! ## Path helpers -/

theorem isPathSeparator_dot (os : GOOS) : IsPathSeparator os 46 = false := by
  cases os <;> decide

theorem extLoop_skip (os : GOOS) (a b : GoString) (hb : plainSegment os b) :
    ∀ k, k ≤ b.length → extLoop os (a ++ b) (a.length + k) = extLoop os (a ++ b) a.length := by
  intro k
  induction k with
  | zero => intro _; rfl
  | succ k ih =>
    intro hk
    have hk' : k < b.length := hk
    have hget : (a ++ b)[a.length + k]? = some b[k] := by
      rw [List.getElem?_append_right (by omega)]
      simp [List.getElem?_eq_getElem hk']
    have hmem : b[k] ∈ b := List.getElem_mem hk'
    obtain ⟨hdot, hsep⟩ := hb _ hmem
    rw [← Nat.add_assoc, extLoop, hget]
    simp only [hsep, hdot, if_false, Bool.false_eq_true]
    exact ih (by omega)

theorem Ext_dot (os : GOOS) (a b : GoString) (hb : plainSegment os b) :
    Ext os (a ++ 46 :: b) = 46 :: b := by
  have h1 : a ++ 46 :: b = (a ++ [46]) ++ b := by simp
  have hlen : (a ++ 46 :: b).length = (a ++ [46]).length + b.length := by
    simp; omega
  unfold Ext
  rw [hlen, h1, extLoop_skip os (a ++ [46]) b hb b.length (le_refl _)]
  have hget : (a ++ [46] ++ b)[a.length]? = some 46 := by
    rw [List.append_assoc, List.getElem?_append_right (le_refl _)]
    simp
  rw [List.length_append, List.length_singleton, extLoop, hget]
  simp [isPathSeparator_dot]

theorem Ext_none (os : GOOS) (a b : GoString) (hb : plainSegment os b)
    (ha : a = [] ∨ ∃ a' c, a = a' ++ [c] ∧ IsPathSeparator os c = true) :
    Ext os (a ++ b) = [] := by
  unfold Ext
  rw [List.length_append, extLoop_skip os a b hb b.length (le_refl _)]
  rcases ha with rfl | ⟨a', c, rfl, hc⟩
  · rfl
  · have hget : (a' ++ [c] ++ b)[a'.length]? = some c := by
      rw [List.append_assoc, List.getElem?_append_right (le_refl _)]
      simp
    rw [List.length_append, List.length_singleton, extLoop, hget]
    simp [hc]

theorem TrimSuffix_append (a b : GoString) : TrimSuffix (a ++ b) b = a := by
  simp [TrimSuffix, HasSuffix]

theorem TrimSuffix_nil (a : GoString) : TrimSuffix a [] = a := by
  simp [TrimSuffix, HasSuffix]

/-- Every path ends in a plain segment that either follows the last dot of the
final element, or is the whole final element. -/
theorem path_cases (os : GOOS) (p : GoString) :
    (∃ a b, p = a ++ 46 :: b ∧ plainSegment os b) ∨
    (∃ a b, p = a ++ b ∧ plainSegment os b ∧
      (a = [] ∨ ∃ a' c, a = a' ++ [c] ∧ IsPathSeparator os c = true)) := by
  induction p using List.reverseRecOn with
  | nil => exact Or.inr ⟨[], [], rfl, by simp [plainSegment], Or.inl rfl⟩
  | append_singleton q c ih =>
    by_cases hsep : IsPathSeparator os c = true
    · exact Or.inr ⟨q ++ [c], [], by simp, by simp [plainSegment], Or.inr ⟨q, c, rfl, hsep⟩⟩
    · by_cases hdot : c = 46
      · subst hdot
        exact Or.inl ⟨q, [], rfl, by simp [plainSegment]⟩
      · have hc : plainSegment os [c] := by
          intro x hx
          simp at hx
          subst hx
          exact ⟨hdot, by simpa using hsep⟩
        rcases ih with ⟨a, b, rfl, hb⟩ | ⟨a, b, rfl, hb, ha⟩
        · refine Or.inl ⟨a, b ++ [c], by simp, ?_⟩
          intro x hx
          rcases List.mem_append.1 hx with h | h
          · exact hb x h
          · exact hc x h
        · refine Or.inr ⟨a, b ++ [c], by simp, ?_, ha⟩
          intro x hx
          rcases List.mem_append.1 hx with h | h
          · exact hb x h
          · exact hc x h

theorem str_dot : str "." = [46] := by decide

theorem langUknown_eq : LangUknown = [48, 48] := by decide

theorem letter_plain (os : GOOS) (c : UInt8) (h : isAsciiLetter c = true) :
    c ≠ 46 ∧ IsPathSeparator os c = false := by
  refine ⟨?_, ?_⟩
  · rintro rfl
    revert h; decide
  · cases os
    · simp only [IsPathSeparator, beq_eq_false_iff_ne, ne_eq]
      rintro rfl
      revert h; decide
    · simp only [IsPathSeparator, Bool.or_eq_false_iff, beq_eq_false_iff_ne, ne_eq]
      constructor <;> (rintro rfl; revert h; decide)

theorem langShape_plain (os : GOOS) (s : GoString) (h : isLangShape s = true) :
    plainSegment os s ∧ 2 ≤ s.length := by
  simp only [isLangShape, Bool.and_eq_true, Bool.or_eq_true, decide_eq_true_eq,
    List.all_eq_true] at h
  refine ⟨fun c hc => letter_plain os c (h.2 c hc), ?_⟩
  rcases h.1 with h | h <;> omega

theorem Ext_suffix (os : GOOS) (p : GoString) :
    TrimSuffix p (Ext os p) ++ Ext os p = p := by
  rcases path_cases os p with ⟨a, b, rfl, hb⟩ | ⟨a, b, rfl, hb, ha⟩
  · rw [Ext_dot os a b hb, TrimSuffix_append]
  · rw [Ext_none os a b hb ha, TrimSuffix_nil]
    simp

theorem lastElement_append (os : GOOS) (a b : GoString)
    (hb : ∀ c ∈ b, IsPathSeparator os c = false) :
    lastElement os (a ++ b) = lastElement os a ++ b := by
  unfold lastElement
  rw [List.reverse_append, List.takeWhile_append_of_pos (by simpa using hb)]
  simp

theorem lastElement_sep (os : GOOS) (a : GoString)
    (ha : a = [] ∨ ∃ a' c, a = a' ++ [c] ∧ IsPathSeparator os c = true) :
    lastElement os a = [] := by
  rcases ha with rfl | ⟨a', c, rfl, hc⟩
  · rfl
  · simp [lastElement, List.takeWhile, hc]

theorem Ext_eq_extensionOf (os : GOOS) (p : GoString) : Ext os p = extensionOf os p := by
  rcases path_cases os p with ⟨a, b, rfl, hb⟩ | ⟨a, b, rfl, hb, ha⟩
  · rw [Ext_dot os a b hb]
    have hb' : ∀ c ∈ (46 : UInt8) :: b, IsPathSeparator os c = false := by
      intro c hc
      rcases List.mem_cons.1 hc with rfl | h
      · exact isPathSeparator_dot os
      · exact (hb c h).2
    unfold extensionOf
    simp only [lastElement_append os a _ hb']
    rw [if_pos (by simp)]
    rw [List.reverse_append, List.reverse_cons, List.append_assoc,
      List.takeWhile_append_of_pos (by
        intro c hc
        have := (hb c (List.mem_reverse.1 hc)).1
        simpa using this)]
    simp [List.takeWhile]
  · rw [Ext_none os a b hb ha]
    unfold extensionOf
    simp only [lastElement_append os a b (fun c hc => (hb c hc).2), lastElement_sep os a ha,
      List.nil_append]
    rw [if_neg]
    intro h
    exact (hb _ h).1 rfl

theorem TrimSuffix_Ext_eq_baseOf (os : GOOS) (p : GoString) :
    TrimSuffix p (Ext os p) = baseOf os p := by
  unfold baseOf
  rw [← Ext_eq_extensionOf]
  generalize hE : Ext os p = e
  have h := Ext_suffix os p
  rw [hE] at h
  generalize TrimSuffix p e = t at h
  subst h
  simp

theorem GetCaptionPath_lang (os : GOOS) (p lang ext : GoString)
    (h0 : lang ≠ []) (hne : lang ≠ LangUknown) :
    GetCaptionPath os p lang ext = (TrimSuffix p (Ext os p) ++ 46 :: lang) ++ 46 :: ext := by
  have h0' : ¬ lang.length = 0 := by simpa using h0
  simp [GetCaptionPath, str_dot, h0', hne]

theorem GetCaptionPath_unknown (os : GOOS) (p lang ext : GoString)
    (h : lang = [] ∨ lang = LangUknown) :
    GetCaptionPath os p lang ext = TrimSuffix p (Ext os p) ++ 46 :: ext := by
  rcases h with rfl | rfl <;> simp [GetCaptionPath, str_dot]

/-- C1: a language code accepted by the validator (which accepts only strings
of 2 or 3 ASCII letters) and different from the unknown token is detected again
in the caption path built from it, for every media path and every caption
extension without a dot or path separator. -/
theorem GetCaptionsLangFromPath_GetCaptionPath (os : GOOS) (valid : GoString → Bool)
    (p lang ext : GoString)
    (hshape : ∀ s, valid s = true → isLangShape s = true)
    (hvalid : valid lang = true) (hne : lang ≠ LangUknown)
    (hext : plainSegment os ext) :
    GetCaptionsLangFromPath os valid (GetCaptionPath os p lang ext) = lang := by
  obtain ⟨hplain, hlen⟩ := langShape_plain os lang (hshape lang hvalid)
  have h0 : lang ≠ [] := by
    rintro rfl
    simp at hlen
  rw [GetCaptionPath_lang os p lang ext h0 hne]
  unfold GetCaptionsLangFromPath
  simp only [Ext_dot os _ ext hext, TrimSuffix_append, Ext_dot os _ lang hplain]
  have hgt : ((46 : UInt8) :: lang).length > 2 := by
    simp only [List.length_cons]; omega
  rw [if_pos ⟨hgt, by simpa using hvalid⟩]
  rfl

/-- Witness of C1: the code `en` on `movie.mkv` with extension `srt`. -/
theorem GetCaptionsLangFromPath_GetCaptionPath_witness :
    GetCaptionsLangFromPath GOOS.unix shapeValidator
      (GetCaptionPath GOOS.unix (str "movie.mkv") (str "en") (str "srt")) = str "en" :=
  GetCaptionsLangFromPath_GetCaptionPath GOOS.unix shapeValidator (str "movie.mkv") (str "en")
    (str "srt") (fun _ h => h) (by decide) (by decide) (by
      intro c hc
      revert c
      decide)

/-- The result of `Ext` is empty or a dot followed by a plain segment. -/
theorem Ext_head (os : GOOS) (p : GoString) :
    Ext os p = [] ∨ ∃ b, Ext os p = 46 :: b ∧ plainSegment os b := by
  rcases path_cases os p with ⟨a, b, rfl, hb⟩ | ⟨a, b, rfl, hb, ha⟩
  · exact Or.inr ⟨b, Ext_dot os a b hb, hb⟩
  · exact Or.inl (Ext_none os a b hb ha)

/-- C6 as stated fails: the media file `movie.en.mkv` has the unqualified
caption path `movie.en.srt`, in which the segment `en` of the base filename is
detected as the language. -/
theorem GetCaptionsLangFromPath_unqualified_counterexample :
    plainSegment GOOS.unix (str "srt") ∧
    GetCaptionPath GOOS.unix (str "movie.en.mkv") LangUknown (str "srt") = str "movie.en.srt" ∧
    GetCaptionsLangFromPath GOOS.unix enValidator
      (GetCaptionPath GOOS.unix (str "movie.en.mkv") LangUknown (str "srt")) = str "en" ∧
    str "en" ≠ LangUknown := by
  refine ⟨?_, by decide, by decide, by decide⟩
  intro c hc
  revert c
  decide

/-- C6, amended: a caption path built without a language qualifier is detected
as carrying none, provided the media base name (the media path without its
extension) does not itself end in a dot segment of at least 2 bytes that the
validator accepts; when the base name does end in such a segment, that segment,
the bytes after the last dot of the base name, is what is detected. -/
theorem GetCaptionsLangFromPath_unqualified (os : GOOS) (valid : GoString → Bool)
    (p ext : GoString) (hext : plainSegment os ext) :
    (¬ ((Ext os (TrimSuffix p (Ext os p))).length > 2 ∧
        valid ((Ext os (TrimSuffix p (Ext os p))).drop 1) = true) →
      GetCaptionsLangFromPath os valid (GetCaptionPath os p LangUknown ext) = LangUknown) ∧
    (((Ext os (TrimSuffix p (Ext os p))).length > 2 ∧
        valid ((Ext os (TrimSuffix p (Ext os p))).drop 1) = true) →
      GetCaptionsLangFromPath os valid (GetCaptionPath os p LangUknown ext) =
          (Ext os (TrimSuffix p (Ext os p))).drop 1 ∧
      TrimSuffix p (Ext os p) =
        TrimSuffix (TrimSuffix p (Ext os p)) (Ext os (TrimSuffix p (Ext os p))) ++ str "." ++
          GetCaptionsLangFromPath os valid (GetCaptionPath os p LangUknown ext) ∧
      valid (GetCaptionsLangFromPath os valid (GetCaptionPath os p LangUknown ext)) = true) := by
  have hres : GetCaptionsLangFromPath os valid (GetCaptionPath os p LangUknown ext) =
      if (Ext os (TrimSuffix p (Ext os p))).length > 2 ∧
          valid ((Ext os (TrimSuffix p (Ext os p))).drop 1) = true then
        (Ext os (TrimSuffix p (Ext os p))).drop 1
      else LangUknown := by
    rw [GetCaptionPath_unknown os p LangUknown ext (Or.inr rfl)]
    unfold GetCaptionsLangFromPath
    simp only [Ext_dot os _ ext hext, TrimSuffix_append]
  constructor
  · intro hbase
    rw [hres, if_neg hbase]
  · intro hbase
    rw [hres, if_pos hbase]
    refine ⟨rfl, ?_, hbase.2⟩
    rcases Ext_head os (TrimSuffix p (Ext os p)) with h0 | ⟨b, hb, -⟩
    · rw [h0] at hbase
      exact absurd hbase.1 (by simp)
    · have hsuf := Ext_suffix os (TrimSuffix p (Ext os p))
      rw [hb] at hsuf ⊢
      rw [str_dot]
      simp only [List.drop_succ_cons, List.drop_zero, List.append_assoc, List.singleton_append]
      exact hsuf.symm

/-- Witness of C6, amended: the media file `movie.v2.mkv`, whose base name ends
in a segment that is no language code, gives the unknown token, and the media
file `movie.fr.mkv`, whose base name ends in one, gives that segment. -/
theorem GetCaptionsLangFromPath_unqualified_witness :
    GetCaptionsLangFromPath GOOS.unix shapeValidator
      (GetCaptionPath GOOS.unix (str "movie.v2.mkv") LangUknown (str "srt")) = LangUknown ∧
    GetCaptionsLangFromPath GOOS.unix shapeValidator
      (GetCaptionPath GOOS.unix (str "movie.fr.mkv") LangUknown (str "srt")) = str "fr" :=
  ⟨(GetCaptionsLangFromPath_unqualified GOOS.unix shapeValidator (str "movie.v2.mkv")
      (str "srt") (by decide)).1 (by decide),
   ((GetCaptionsLangFromPath_unqualified GOOS.unix shapeValidator (str "movie.fr.mkv")
      (str "srt") (by decide)).2 (by decide)).1.trans (by decide)⟩

/-- C7: for a language that is neither empty nor the unknown token, the caption
path is the media path without its extension, then a dot, the language, a dot
and the suffix; here the extension is the part of the final path element from
its last dot onward (nothing when it has no dot), and removing it from the path
leaves the base. Nothing is required of the path or the suffix. -/
theorem GetCaptionPath_qualified (os : GOOS) (p lang ext : GoString)
    (h0 : lang ≠ []) (hne : lang ≠ LangUknown) :
    GetCaptionPath os p lang ext = baseOf os p ++ str "." ++ lang ++ str "." ++ ext ∧
    baseOf os p ++ extensionOf os p = p := by
  constructor
  · rw [GetCaptionPath_lang os p lang ext h0 hne, TrimSuffix_Ext_eq_baseOf, str_dot]
    simp
  · rw [← TrimSuffix_Ext_eq_baseOf, ← Ext_eq_extensionOf]
    exact Ext_suffix os p

/-- Witness of C7: `movie.mkv`, `en`, `srt` give `movie.en.srt`, the empty
path gives `.en.srt`, and the path `movie` without extension gives
`movie.en.srt`. -/
theorem GetCaptionPath_qualified_witness :
    GetCaptionPath GOOS.unix (str "movie.mkv") (str "en") (str "srt") = str "movie.en.srt" ∧
    GetCaptionPath GOOS.unix (str "") (str "en") (str "srt") = str ".en.srt" ∧
    GetCaptionPath GOOS.unix (str "movie") (str "en") (str "srt") = str "movie.en.srt" :=
  ⟨(GetCaptionPath_qualified GOOS.unix (str "movie.mkv") (str "en") (str "srt")
      (by decide) (by decide)).1.trans (by decide),
   (GetCaptionPath_qualified GOOS.unix (str "") (str "en") (str "srt")
      (by decide) (by decide)).1.trans (by decide),
   (GetCaptionPath_qualified GOOS.unix (str "movie") (str "en") (str "srt")
      (by decide) (by decide)).1.trans (by decide)⟩

/-- C8: the empty language and the unknown token give the same caption path,
the media path without its extension followed by a dot and the suffix; so
`movie.mkv` with `00` and `srt` gives `movie.srt`. -/
theorem GetCaptionPath_empty_eq_unknown (os : GOOS) (p ext : GoString) :
    GetCaptionPath os p [] ext = GetCaptionPath os p LangUknown ext ∧
    GetCaptionPath os p LangUknown ext = baseOf os p ++ str "." ++ ext ∧
    baseOf os p ++ extensionOf os p = p ∧
    GetCaptionPath GOOS.unix (str "movie.mkv") (str "00") (str "srt") = str "movie.srt" := by
  refine ⟨?_, ?_, ?_, by decide⟩
  · rw [GetCaptionPath_unknown os p [] ext (Or.inl rfl),
      GetCaptionPath_unknown os p LangUknown ext (Or.inr rfl)]
  · rw [GetCaptionPath_unknown os p LangUknown ext (Or.inr rfl), TrimSuffix_Ext_eq_baseOf,
      str_dot]
    simp
  · rw [← TrimSuffix_Ext_eq_baseOf, ← Ext_eq_extensionOf]
    exact Ext_suffix os p

/-! ## Caption sets and reconciliation -/

theorem Split_ne_nil (s : GoString) (sep : UInt8) : Split s sep ≠ [] := by
  induction s with
  | nil => simp [Split]
  | cons c cs ih =>
    unfold Split
    split
    · simp
    · split <;> simp

theorem Split_no_sep (s : GoString) (sep : UInt8) (h : sep ∉ s) : Split s sep = [s] := by
  induction s with
  | nil => rfl
  | cons c cs ih =>
    have hc : ¬ c = sep := fun e => h (by simp [e])
    have hcs : sep ∉ cs := fun e => h (List.mem_cons_of_mem _ e)
    simp [Split, hc, ih hcs]

theorem Split_append_sep (x y : GoString) (sep : UInt8) :
    Split (x ++ sep :: y) sep = Split x sep ++ Split y sep := by
  induction x with
  | nil => simp [Split]
  | cons c cs ih =>
    by_cases hc : c = sep
    · simp [Split, hc, ih]
    · have hne := Split_ne_nil cs sep
      rw [List.cons_append, Split, if_neg hc, ih]
      conv_rhs => rw [Split, if_neg hc]
      cases hs : Split cs sep with
      | nil => exact absurd hs hne
      | cons piece pieces => simp

theorem mem_Split_no_sep (s : GoString) (sep : UInt8) :
    ∀ l ∈ Split s sep, sep ∉ l := by
  induction s with
  | nil => simp [Split]
  | cons c cs ih =>
    intro l hl
    unfold Split at hl
    split at hl
    · rcases List.mem_cons.1 hl with rfl | h
      · simp
      · exact ih l h
    · rename_i hc
      cases hs : Split cs sep with
      | nil => exact absurd hs (Split_ne_nil cs sep)
      | cons piece pieces =>
        rw [hs] at hl ih
        simp only [List.mem_cons] at hl
        rcases hl with rfl | h
        · intro hmem
          rcases List.mem_cons.1 hmem with e | e
          · exact hc e.symm
          · exact ih piece (by simp) e
        · exact ih l (by simp [h])

theorem Join_snoc (L : List GoString) (l : GoString) (sep : UInt8) (hL : L ≠ []) :
    Join (L ++ [l]) sep = Join L sep ++ sep :: l := by
  induction L with
  | nil => exact absurd rfl hL
  | cons a rest ih =>
    cases rest with
    | nil => simp [Join]
    | cons b rest =>
      have := ih (by simp)
      simp only [List.cons_append] at this ⊢
      simp [Join, this]

theorem Join_ne_nil (L : List GoString) (sep : UInt8) (hL : L ≠ [])
    (hne : ∀ l ∈ L, l ≠ []) : Join L sep ≠ [] := by
  cases L with
  | nil => exact absurd rfl hL
  | cons a rest =>
    have ha : a ≠ [] := hne a (by simp)
    cases rest with
    | nil => simpa [Join] using ha
    | cons b rest => simp [Join, ha]

theorem Split_Join (L : List GoString) (sep : UInt8) (hL : L ≠ [])
    (hsep : ∀ l ∈ L, sep ∉ l) : Split (Join L sep) sep = L := by
  induction L with
  | nil => exact absurd rfl hL
  | cons a rest ih =>
    cases rest with
    | nil => simpa [Join] using Split_no_sep a sep (hsep a (by simp))
    | cons b rest =>
      have h1 := ih (by simp) (fun l hl => hsep l (List.mem_cons_of_mem _ hl))
      rw [Join, Split_append_sep, h1, Split_no_sep a sep (hsep a (by simp))]
      rfl

/-- Adding the languages of a list one after the other to the empty set gives
the join of the non-empty ones. -/
theorem foldl_AddLangToCaptions (L : List GoString) :
    L.foldl (fun c l => AddLangToCaptions l c) [] =
      Join (L.filter (fun l => l != [])) CaptionSep := by
  induction L using List.reverseRecOn with
  | nil => rfl
  | append_singleton L l ih =>
    rw [List.foldl_append, List.foldl_cons, List.foldl_nil, ih, List.filter_append]
    by_cases hl : l = []
    · subst hl
      simp [AddLangToCaptions]
    · have hf : List.filter (fun l => l != []) [l] = [l] := by simp [hl]
      rw [hf]
      unfold AddLangToCaptions
      rw [if_neg hl]
      by_cases hF : L.filter (fun l => l != []) = []
      · rw [hF]
        simp [Join]
      · have hne := Join_ne_nil _ CaptionSep hF (by
          intro x hx
          have := (List.mem_filter.1 hx).2
          simpa using this)
        rw [if_pos (by
          have : 0 < (Join (L.filter (fun l => l != [])) CaptionSep).length :=
            List.length_pos.2 hne
          exact this), Join_snoc _ _ _ hF]
        rfl

theorem cleanExts_CaptionExts (os : GOOS) (stat : GoString → Bool) (fn l : GoString)
    (st : CleanState) :
    cleanExts os stat fn l CaptionExts { st with found := false } =
      { cleanedCaptions :=
          if backed os stat fn l then AddLangToCaptions l st.cleanedCaptions
          else st.cleanedCaptions,
        changed := st.changed || !stat (GetCaptionPath os fn l (str "vtt")),
        found := backed os stat fn l,
        probed := st.probed ++
          (if stat (GetCaptionPath os fn l (str "vtt")) then
            [GetCaptionPath os fn l (str "vtt")]
          else [GetCaptionPath os fn l (str "vtt"), GetCaptionPath os fn l (str "srt")]) } := by
  cases h1 : stat (GetCaptionPath os fn l (str "vtt")) <;>
    cases h2 : stat (GetCaptionPath os fn l (str "srt")) <;>
    simp [cleanExts, CaptionExts, backed, h1, h2]

theorem cleanLangs_spec (os : GOOS) (stat : GoString → Bool) (fn : GoString) :
    ∀ (ls : List GoString) (st : CleanState),
      (cleanLangs os stat fn ls st).cleanedCaptions =
          (ls.filter (backed os stat fn)).foldl (fun c l => AddLangToCaptions l c)
            st.cleanedCaptions ∧
      (cleanLangs os stat fn ls st).changed =
          (st.changed || ls.any (fun l => !stat (GetCaptionPath os fn l (str "vtt")))) ∧
      (cleanLangs os stat fn ls st).probed =
          st.probed ++ ls.flatMap (fun l =>
            if stat (GetCaptionPath os fn l (str "vtt")) then
              [GetCaptionPath os fn l (str "vtt")]
            else [GetCaptionPath os fn l (str "vtt"), GetCaptionPath os fn l (str "srt")]) := by
  intro ls
  induction ls with
  | nil => intro st; simp [cleanLangs]
  | cons l ls ih =>
    intro st
    rw [cleanLangs, cleanExts_CaptionExts]
    obtain ⟨h1, h2, h3⟩ := ih
      { cleanedCaptions :=
          if backed os stat fn l then AddLangToCaptions l st.cleanedCaptions
          else st.cleanedCaptions,
        changed := st.changed || !stat (GetCaptionPath os fn l (str "vtt")),
        found := backed os stat fn l,
        probed := st.probed ++
          (if stat (GetCaptionPath os fn l (str "vtt")) then
            [GetCaptionPath os fn l (str "vtt")]
          else [GetCaptionPath os fn l (str "vtt"), GetCaptionPath os fn l (str "srt")]) }
    refine ⟨?_, ?_, ?_⟩
    · rw [h1]
      cases hb : backed os stat fn l <;> simp [List.filter, hb]
    · rw [h2]
      simp [Bool.or_assoc]
    · rw [h3]
      simp [List.flatMap_cons]

/-- The cleaned set is the join of the non-empty backed codes. -/
theorem cleaned_eq_Join (os : GOOS) (stat : GoString → Bool) (fn captions : GoString) :
    (CleanCaptions os stat fn captions).1 =
      Join ((Split captions CaptionSep).filter (fun l => l != [] && backed os stat fn l))
        CaptionSep := by
  have h := (cleanLangs_spec os stat fn (Split captions CaptionSep)
    { cleanedCaptions := [], changed := false, found := false, probed := [] }).1
  simp only [CleanCaptions, cleanRun]
  rw [h, foldl_AddLangToCaptions, List.filter_filter]

/-- C2: the non-empty codes of the cleaned set form a sublist (same order, no
new and no repeated entry) of the codes of the input set, and so does the whole
split of the cleaned set unless the cleaned set is empty. -/
theorem CleanCaptions_codes_sublist (os : GOOS) (stat : GoString → Bool)
    (fn captions : GoString) :
    ((Split (CleanCaptions os stat fn captions).1 CaptionSep).filter
        (fun l => l != [])).Sublist (Split captions CaptionSep) ∧
    ((CleanCaptions os stat fn captions).1 = [] ∨
      (Split (CleanCaptions os stat fn captions).1 CaptionSep).Sublist
        (Split captions CaptionSep)) := by
  rw [cleaned_eq_Join]
  generalize hF : (Split captions CaptionSep).filter
    (fun l => l != [] && backed os stat fn l) = F
  have hsub : F.Sublist (Split captions CaptionSep) := by
    rw [← hF]
    exact List.filter_sublist _
  by_cases hnil : F = []
  · subst hnil
    exact ⟨by simp [Join, Split], Or.inl rfl⟩
  · have hsep : ∀ l ∈ F, CaptionSep ∉ l := fun l hl =>
      mem_Split_no_sep captions CaptionSep l (hsub.subset hl)
    have hne : ∀ l ∈ F, l ≠ [] := by
      intro l hl
      rw [← hF] at hl
      have := (List.mem_filter.1 hl).2
      simp only [Bool.and_eq_true, bne_iff_ne, ne_eq] at this
      exact this.1
    rw [Split_Join F CaptionSep hnil hsep]
    refine ⟨?_, Or.inr hsub⟩
    rw [List.filter_eq_self.2 (by
      intro l hl
      simpa using hne l hl)]
    exact hsub

/-- C3: the cleaned set is the join, in input order, of the non-empty codes of
the input that have a caption file under at least one supported extension; with
`en|fr` on `movie.mkv` and only `movie.en.srt` on disk it is `en`. -/
theorem CleanCaptions_cleaned (os : GOOS) (stat : GoString → Bool) (fn captions : GoString) :
    (CleanCaptions os stat fn captions).1 =
      Join ((Split captions CaptionSep).filter (fun l =>
        l != [] && [str "vtt", str "srt"].any (fun e => stat (GetCaptionPath os fn l e))))
        CaptionSep ∧
    (CleanCaptions GOOS.unix (onlyFiles [str "movie.en.srt"]) (str "movie.mkv")
      (str "en|fr")).1 = str "en" :=
  ⟨cleaned_eq_Join os stat fn captions, by decide⟩

/-- C4: the changed flag is set exactly when one of the probed paths is missing,
which is exactly when some code of the input has no file under the first
extension, vtt; with `en|fr` on `movie.mkv` and only `movie.en.srt` on disk
the result is `en` and true. -/
theorem CleanCaptions_changed (os : GOOS) (stat : GoString → Bool) (fn captions : GoString) :
    ((CleanCaptions os stat fn captions).2 = true ↔
      ∃ f ∈ CleanCaptionsProbes os stat fn captions, stat f = false) ∧
    ((CleanCaptions os stat fn captions).2 = true ↔
      ∃ l ∈ Split captions CaptionSep, stat (GetCaptionPath os fn l (str "vtt")) = false) ∧
    CleanCaptions GOOS.unix (onlyFiles [str "movie.en.srt"]) (str "movie.mkv")
      (str "en|fr") = (str "en", true) := by
  obtain ⟨-, h2, h3⟩ := cleanLangs_spec os stat fn (Split captions CaptionSep)
    { cleanedCaptions := [], changed := false, found := false, probed := [] }
  have hchanged : (CleanCaptions os stat fn captions).2 = true ↔
      ∃ l ∈ Split captions CaptionSep,
        stat (GetCaptionPath os fn l (str "vtt")) = false := by
    simp only [CleanCaptions, cleanRun]
    rw [h2]
    simp
  refine ⟨?_, hchanged, by decide⟩
  rw [hchanged]
  simp only [CleanCaptionsProbes, cleanRun]
  rw [h3]
  simp only [List.nil_append, List.mem_flatMap]
  constructor
  · rintro ⟨l, hl, hs⟩
    exact ⟨GetCaptionPath os fn l (str "vtt"), ⟨l, hl, by simp [hs]⟩, hs⟩
  · rintro ⟨f, ⟨l, hl, hf⟩, hs⟩
    refine ⟨l, hl, ?_⟩
    cases hv : stat (GetCaptionPath os fn l (str "vtt")) with
    | false => rfl
    | true =>
      rw [hv] at hf
      simp only [if_true, List.mem_singleton] at hf
      rw [hf, hv] at hs
      exact absurd hs (by simp)

/-- C5 as stated fails for a code that holds the separator: adding `en|fr` to
the empty set gives `en|fr`, whose codes are `en` and `fr`. -/
theorem IsLangInCaptions_AddLangToCaptions_counterexample :
    str "en|fr" ≠ [] ∧
    AddLangToCaptions (str "en|fr") (str "") = str "en|fr" ∧
    IsLangInCaptions (str "en|fr") (AddLangToCaptions (str "en|fr") (str "")) = false := by
  decide

/-- C5, amended: a non-empty code without the separator is in the set it has
just been added to. -/
theorem IsLangInCaptions_AddLangToCaptions (lang captions : GoString)
    (h0 : lang ≠ []) (hsep : CaptionSep ∉ lang) :
    IsLangInCaptions lang (AddLangToCaptions lang captions) = true := by
  unfold AddLangToCaptions IsLangInCaptions
  rw [if_neg h0]
  split
  · rw [List.singleton_append, Split_append_sep, Split_no_sep lang CaptionSep hsep]
    simp
  · rw [Split_no_sep lang CaptionSep hsep]
    simp

/-- Witness of C5, amended: adding `fr` to `en`. -/
theorem IsLangInCaptions_AddLangToCaptions_witness :
    IsLangInCaptions (str "fr") (AddLangToCaptions (str "fr") (str "en")) = true :=
  IsLangInCaptions_AddLangToCaptions (str "fr") (str "en") (by decide) (by decide)

/-! ## Language detection and candidates -/

/-- Every path is a prefix that is empty or ends in a separator, followed by
its final element. -/
theorem elem_cases (os : GOOS) (p : GoString) :
    ∃ pre e, p = pre ++ e ∧ (∀ c ∈ e, IsPathSeparator os c = false) ∧
      (pre = [] ∨ ∃ a' c, pre = a' ++ [c] ∧ IsPathSeparator os c = true) := by
  induction p using List.reverseRecOn with
  | nil => exact ⟨[], [], rfl, by simp, Or.inl rfl⟩
  | append_singleton q c ih =>
    by_cases hsep : IsPathSeparator os c = true
    · exact ⟨q ++ [c], [], by simp, by simp, Or.inr ⟨q, c, rfl, hsep⟩⟩
    · obtain ⟨pre, e, rfl, he, hpre⟩ := ih
      refine ⟨pre, e ++ [c], by simp, ?_, hpre⟩
      intro x hx
      rcases List.mem_append.1 hx with h | h
      · exact he x h
      · simp only [List.mem_singleton] at h
        subst h
        simpa using hsep

/-- A string holding the byte `d` splits at the last occurrence of `d`. -/
theorem last_split (d : UInt8) (e : GoString) (h : d ∈ e) :
    ∃ a t, e = a ++ d :: t ∧ d ∉ t := by
  induction e with
  | nil => simp at h
  | cons c cs ih =>
    by_cases hcs : d ∈ cs
    · obtain ⟨a, t, rfl, ht⟩ := ih hcs
      exact ⟨c :: a, t, rfl, ht⟩
    · rcases List.mem_cons.1 h with rfl | h'
      · exact ⟨[], cs, rfl, hcs⟩
      · exact absurd h' hcs

theorem GetCaptionsLangFromPath_eq_detectedLang (os : GOOS) (valid : GoString → Bool)
    (c : GoString) : GetCaptionsLangFromPath os valid c = detectedLang os valid c := by
  obtain ⟨pre, e, rfl, he, hpre⟩ := elem_cases os c
  have hlast : lastElement os (pre ++ e) = e := by
    rw [lastElement_append os pre e he, lastElement_sep os pre hpre, List.nil_append]
  unfold detectedLang langSegment GetCaptionsLangFromPath
  simp only [hlast]
  by_cases hdot : (46 : UInt8) ∈ e
  · obtain ⟨a, t, rfl, ht⟩ := last_split 46 e hdot
    have hplain_t : plainSegment os t := fun x hx =>
      ⟨fun h => ht (h ▸ hx), he x (by simp [hx])⟩
    have hE : Ext os (pre ++ (a ++ 46 :: t)) = 46 :: t := by
      rw [← List.append_assoc]
      exact Ext_dot os _ t hplain_t
    have hT : TrimSuffix (pre ++ (a ++ 46 :: t)) (46 :: t) = pre ++ a := by
      rw [← List.append_assoc]
      exact TrimSuffix_append _ _
    rw [hE, hT]
    by_cases hdot2 : (46 : UInt8) ∈ a
    · obtain ⟨x, s, rfl, hs⟩ := last_split 46 a hdot2
      have hplain_s : plainSegment os s := fun y hy =>
        ⟨fun h => hs (h ▸ hy), he y (by simp [hy])⟩
      have hE2 : Ext os (pre ++ (x ++ 46 :: s)) = 46 :: s := by
        rw [← List.append_assoc]
        exact Ext_dot os _ s hplain_s
      have hparts : Split (x ++ 46 :: s ++ 46 :: t) 46 = Split x 46 ++ [s, t] := by
        rw [List.append_assoc, List.cons_append, Split_append_sep, Split_append_sep,
          Split_no_sep s 46 hs, Split_no_sep t 46 ht]
        rfl
      have hxne : 0 < (Split x 46).length := List.length_pos.2 (Split_ne_nil x 46)
      rw [hE2, hparts]
      have hlen : 3 ≤ (Split x 46 ++ [s, t]).length := by
        simp only [List.length_append, List.length_cons, List.length_nil]; omega
      have hidx : (Split x 46 ++ [s, t])[(Split x 46 ++ [s, t]).length - 2]? = some s := by
        have : (Split x 46 ++ [s, t]).length - 2 = (Split x 46).length := by
          simp only [List.length_append, List.length_cons, List.length_nil]; omega
        rw [this, List.getElem?_append_right (le_refl _)]
        simp
      rw [if_pos hlen, hidx]
      simp only [List.length_cons, List.drop_succ_cons, List.drop_zero]
      by_cases hc : 2 ≤ s.length ∧ valid s = true
      · rw [if_pos hc, if_pos ⟨by omega, hc.2⟩]
      · rw [if_neg hc, if_neg (fun h => hc ⟨by omega, h.2⟩)]
    · have hplain_a : plainSegment os a := fun y hy =>
        ⟨fun h => hdot2 (h ▸ hy), he y (by simp [hy])⟩
      rw [Ext_none os pre a hplain_a hpre, Split_append_sep, Split_no_sep a 46 hdot2,
        Split_no_sep t 46 ht]
      simp
  · have hplain : plainSegment os e := fun y hy => ⟨fun h => hdot (h ▸ hy), he y hy⟩
    rw [Ext_none os pre e hplain hpre, TrimSuffix_nil, Ext_none os pre e hplain hpre,
      Split_no_sep e 46 hdot]
    simp

/-- C9: the detected language is the segment between the last two dots of the
final path element when that segment has at least 2 bytes and the validator
accepts it, and the unknown token otherwise; so it is the unknown token or an
accepted code. With a validator accepting `en`: `movie.en.srt` gives `en`,
`movie.srt` and `movie.x.srt` give `00`. -/
theorem GetCaptionsLangFromPath_spec (os : GOOS) (valid : GoString → Bool) (c : GoString) :
    GetCaptionsLangFromPath os valid c = detectedLang os valid c ∧
    (GetCaptionsLangFromPath os valid c = LangUknown ∨
      valid (GetCaptionsLangFromPath os valid c) = true) ∧
    GetCaptionsLangFromPath GOOS.unix enValidator (str "movie.en.srt") = str "en" ∧
    GetCaptionsLangFromPath GOOS.unix enValidator (str "movie.srt") = str "00" ∧
    GetCaptionsLangFromPath GOOS.unix enValidator (str "movie.x.srt") = str "00" := by
  refine ⟨GetCaptionsLangFromPath_eq_detectedLang os valid c, ?_, by decide, by decide,
    by decide⟩
  unfold GetCaptionsLangFromPath
  simp only
  split
  · rename_i h
    exact Or.inr h.2
  · exact Or.inl rfl

theorem foldl_candidates (f : GoString → GoString) (exts : List GoString) :
    ∀ acc : List GoString,
      exts.foldl (fun candidates ext => candidates ++ [f ext]) acc = acc ++ exts.map f := by
  induction exts with
  | nil => intro acc; simp
  | cons e es ih => intro acc; simp [ih]

/-- C10: the candidates are one per extension, in the order of the extensions:
the entry at each index is one common base, a dot, and the extension at that
index. `movie.en.srt` with vtt and srt gives `movie.vtt` and `movie.srt`. -/
theorem GenerateCaptionCandidates_spec (os : GOOS) (valid : GoString → Bool) (c : GoString) :
    (∃ b : GoString, ∀ exts : List GoString,
      (GenerateCaptionCandidates os valid c exts).length = exts.length ∧
      (∀ i : Nat, (GenerateCaptionCandidates os valid c exts)[i]? =
        (exts[i]?).map (fun e => b ++ str "." ++ e)) ∧
      GenerateCaptionCandidates os valid c exts = exts.map (fun e => b ++ str "." ++ e)) ∧
    GenerateCaptionCandidates GOOS.unix enValidator (str "movie.en.srt")
      [str "vtt", str "srt"] = [str "movie.vtt", str "movie.srt"] := by
  refine ⟨?_, by decide⟩
  refine ⟨if (Ext os (TrimSuffix c (Ext os c))).length > 2 ∧
      valid ((Ext os (TrimSuffix c (Ext os c))).drop 1) = true then
      TrimSuffix (TrimSuffix c (Ext os c)) (Ext os (TrimSuffix c (Ext os c)))
    else TrimSuffix c (Ext os c), ?_⟩
  intro exts
  have h : GenerateCaptionCandidates os valid c exts = exts.map (fun e =>
      (if (Ext os (TrimSuffix c (Ext os c))).length > 2 ∧
        valid ((Ext os (TrimSuffix c (Ext os c))).drop 1) = true then
        TrimSuffix (TrimSuffix c (Ext os c)) (Ext os (TrimSuffix c (Ext os c)))
      else TrimSuffix c (Ext os c)) ++ str "." ++ e) := by
    unfold GenerateCaptionCandidates
    simp only
    rw [foldl_candidates]
    rfl
  rw [h]
  exact ⟨by simp, fun i => by simp, rfl⟩

/-! ## Candidates, membership and insertion -/

theorem candidates_eq_map (os : GOOS) (valid : GoString → Bool) (c : GoString)
    (exts : List GoString) :
    GenerateCaptionCandidates os valid c exts = exts.map (fun e =>
      (if (Ext os (TrimSuffix c (Ext os c))).length > 2 ∧
        valid ((Ext os (TrimSuffix c (Ext os c))).drop 1) = true then
        TrimSuffix (TrimSuffix c (Ext os c)) (Ext os (TrimSuffix c (Ext os c)))
      else TrimSuffix c (Ext os c)) ++ str "." ++ e) := by
  unfold GenerateCaptionCandidates
  simp only
  rw [foldl_candidates]
  rfl

/-- C11: with a validator that rejects the unknown token, the common base of
the candidates is the caption path without its final extension, further
stripped of the trailing dot and detected language exactly when
`GetCaptionsLangFromPath` detects one, in which case the path without extension
is that base, a dot and the language; only one segment is stripped, so
`movie.en.fr.srt` with vtt gives `movie.en.vtt`. -/
theorem GenerateCaptionCandidates_strippedBase (os : GOOS) (valid : GoString → Bool)
    (c : GoString) (exts : List GoString) (hv : valid LangUknown = false) :
    GenerateCaptionCandidates os valid c exts =
      exts.map (fun e => strippedBase os valid c ++ str "." ++ e) ∧
    (GetCaptionsLangFromPath os valid c = LangUknown ∨
      TrimSuffix c (Ext os c) =
        strippedBase os valid c ++ str "." ++ GetCaptionsLangFromPath os valid c) ∧
    GenerateCaptionCandidates GOOS.unix shapeValidator (str "movie.en.fr.srt") [str "vtt"] =
      [str "movie.en.vtt"] := by
  refine ⟨?_, ?_, by decide⟩
  · rw [candidates_eq_map]
    unfold strippedBase GetCaptionsLangFromPath
    simp only
    by_cases hc : (Ext os (TrimSuffix c (Ext os c))).length > 2 ∧
        valid ((Ext os (TrimSuffix c (Ext os c))).drop 1) = true
    · have hne : (Ext os (TrimSuffix c (Ext os c))).drop 1 ≠ LangUknown := by
        intro h
        rw [h, hv] at hc
        exact absurd hc.2 (by simp)
      rcases Ext_head os (TrimSuffix c (Ext os c)) with h0 | ⟨b, hb, -⟩
      · rw [h0] at hc
        exact absurd hc.1 (by simp)
      · simp only [if_pos hc, if_neg hne]
        rw [hb, str_dot]
        rfl
    · simp only [if_neg hc, if_true]
  · unfold strippedBase GetCaptionsLangFromPath
    simp only
    by_cases hc : (Ext os (TrimSuffix c (Ext os c))).length > 2 ∧
        valid ((Ext os (TrimSuffix c (Ext os c))).drop 1) = true
    · have hne : (Ext os (TrimSuffix c (Ext os c))).drop 1 ≠ LangUknown := by
        intro h
        rw [h, hv] at hc
        exact absurd hc.2 (by simp)
      rcases Ext_head os (TrimSuffix c (Ext os c)) with h0 | ⟨b, hb, -⟩
      · rw [h0] at hc
        exact absurd hc.1 (by simp)
      · right
        simp only [if_pos hc, if_neg hne]
        rw [hb, str_dot]
        simp only [List.drop_succ_cons, List.drop_zero, List.singleton_append,
          List.append_assoc]
        have := Ext_suffix os (TrimSuffix c (Ext os c))
        rw [hb] at this
        exact this.symm
    · left
      simp only [if_neg hc]

/-- Witness of C11: the caption path `movie.en.srt` with vtt and srt. -/
theorem GenerateCaptionCandidates_strippedBase_witness :
    GenerateCaptionCandidates GOOS.unix shapeValidator (str "movie.en.srt")
      [str "vtt", str "srt"] = [str "movie.vtt", str "movie.srt"] :=
  (GenerateCaptionCandidates_strippedBase GOOS.unix shapeValidator (str "movie.en.srt")
    [str "vtt", str "srt"] (by decide)).1.trans (by decide)

/-- C12: a language is reported present exactly when one of the pieces of the
caption set between separators is equal to it, byte for byte; so `EN` and `e`
are not in `en|fr`, while `fr` is. -/
theorem IsLangInCaptions_iff (lang captions : GoString) :
    (IsLangInCaptions lang captions = true ↔
      ∃ l ∈ Split captions CaptionSep, l = lang) ∧
    IsLangInCaptions (str "EN") (str "en|fr") = false ∧
    IsLangInCaptions (str "e") (str "en|fr") = false ∧
    IsLangInCaptions (str "fr") (str "en|fr") = true := by
  refine ⟨?_, by decide, by decide, by decide⟩
  unfold IsLangInCaptions
  rw [List.any_eq_true]
  constructor
  · rintro ⟨l, hl, he⟩
    exact ⟨l, hl, by simpa using he⟩
  · rintro ⟨l, hl, he⟩
    exact ⟨l, hl, by simpa using he⟩

theorem str_bar : str "|" = [CaptionSep] := by decide

theorem Split_AddLangToCaptions (lang captions : GoString)
    (h0 : lang ≠ []) (hsep : CaptionSep ∉ lang) :
    Split (AddLangToCaptions lang captions) CaptionSep = codesOf captions ++ [lang] := by
  unfold AddLangToCaptions codesOf
  rw [if_neg h0]
  by_cases hc : captions = []
  · subst hc
    simp [Split_no_sep lang CaptionSep hsep]
  · have hpos : captions.length > 0 := List.length_pos.2 hc
    rw [if_pos hpos, if_neg hc, List.singleton_append, Split_append_sep,
      Split_no_sep lang CaptionSep hsep]

/-- C13 as stated fails for the empty code: it is reported present in the
empty caption set, and adding it leaves the set as it is, with the same single
empty piece. -/
theorem AddLangToCaptions_duplicate_counterexample :
    IsLangInCaptions (str "") (str "") = true ∧
    AddLangToCaptions (str "") (str "") = str "" ∧
    (Split (AddLangToCaptions (str "") (str "")) CaptionSep).count (str "") =
      (Split (str "") CaptionSep).count (str "") := by
  decide

/-- C13, amended: adding the empty code gives the set back, adding a non-empty
code to the empty set gives the code, and otherwise the result is the set, the
separator and the code; adding a non-empty code that is reported present gives a
set whose split holds it one more time than before. -/
theorem AddLangToCaptions_spec (lang captions : GoString)
    (h0 : lang ≠ []) (hin : IsLangInCaptions lang captions = true) :
    (∀ l c : GoString, AddLangToCaptions l c =
      if l = [] then c else if c = [] then l else c ++ str "|" ++ l) ∧
    AddLangToCaptions lang captions = captions ++ str "|" ++ lang ∧
    (Split (AddLangToCaptions lang captions) CaptionSep).count lang =
      (Split captions CaptionSep).count lang + 1 := by
  have hmem : lang ∈ Split captions CaptionSep := by
    unfold IsLangInCaptions at hin
    rw [List.any_eq_true] at hin
    obtain ⟨l, hl, he⟩ := hin
    have : l = lang := by simpa using he
    exact this ▸ hl
  have hsep : CaptionSep ∉ lang := mem_Split_no_sep captions CaptionSep lang hmem
  have hc : captions ≠ [] := by
    rintro rfl
    simp only [Split, List.mem_singleton] at hmem
    exact h0 hmem
  have hthree : ∀ l c : GoString, AddLangToCaptions l c =
      if l = [] then c else if c = [] then l else c ++ str "|" ++ l := by
    intro l c
    unfold AddLangToCaptions
    by_cases hl : l = []
    · simp [hl]
    · by_cases hc : c = []
      · simp [hl, hc]
      · have hpos : c.length > 0 := List.length_pos.2 hc
        simp [hl, hc, hpos, str_bar]
  refine ⟨hthree, ?_, ?_⟩
  · rw [hthree, if_neg h0, if_neg hc]
  · rw [Split_AddLangToCaptions lang captions h0 hsep]
    unfold codesOf
    rw [if_neg hc, List.count_append]
    simp

/-- Witness of C13, amended: adding `en` to `en|fr` gives `en|fr|en`. -/
theorem AddLangToCaptions_spec_witness :
    AddLangToCaptions (str "en") (str "en|fr") = str "en|fr|en" ∧
    (Split (AddLangToCaptions (str "en") (str "en|fr")) CaptionSep).count (str "en") =
      (Split (str "en|fr") CaptionSep).count (str "en") + 1 :=
  ⟨(AddLangToCaptions_spec (str "en") (str "en|fr") (by decide) (by decide)).2.1.trans
      (by decide),
   (AddLangToCaptions_spec (str "en") (str "en|fr") (by decide) (by decide)).2.2⟩

/-- C14 as stated fails for the empty language: the split of the empty caption
set is one empty piece, which is equal to it. -/
theorem IsLangInCaptions_empty_counterexample :
    Split (str "") CaptionSep = [str ""] ∧
    IsLangInCaptions (str "") (str "") = true := by
  decide

/-- C14, amended: the empty caption set holds no non-empty language. -/
theorem IsLangInCaptions_empty (lang : GoString) (h0 : lang ≠ []) :
    IsLangInCaptions lang [] = false := by
  unfold IsLangInCaptions
  simp only [Split, List.any_cons, List.any_nil, Bool.or_false, beq_eq_false_iff_ne, ne_eq]
  exact fun h => h0 h.symm

/-- Witness of C14, amended: `en` is not in the empty set. -/
theorem IsLangInCaptions_empty_witness :
    IsLangInCaptions (str "en") [] = false :=
  IsLangInCaptions_empty (str "en") (by decide)

/-- C15: the changed flag can be set while every code survives: with `en` on
`movie.mkv`, `movie.en.srt` on disk and `movie.en.vtt` absent, the result is
the input set `en` and true. -/
theorem CleanCaptions_changed_without_removal :
    (∃ (os : GOOS) (stat : GoString → Bool) (fn captions : GoString),
      CleanCaptions os stat fn captions = (captions, true)) ∧
    onlyFiles [str "movie.en.srt"] (str "movie.en.vtt") = false ∧
    onlyFiles [str "movie.en.srt"] (str "movie.en.srt") = true ∧
    CleanCaptions GOOS.unix (onlyFiles [str "movie.en.srt"]) (str "movie.mkv") (str "en") =
      (str "en", true) :=
  ⟨⟨GOOS.unix, onlyFiles [str "movie.en.srt"], str "movie.mkv", str "en", by decide⟩,
    by decide, by decide, by decide⟩

/-- C16: under a fixed filesystem, cleaning the cleaned set gives the cleaned
set again; the changed flag of the second run may still be set, as for `en|fr`
on `movie.mkv` with only `movie.en.srt` on disk. -/
theorem CleanCaptions_idempotent (os : GOOS) (stat : GoString → Bool)
    (fn captions : GoString) :
    (CleanCaptions os stat fn (CleanCaptions os stat fn captions).1).1 =
      (CleanCaptions os stat fn captions).1 ∧
    CleanCaptions GOOS.unix (onlyFiles [str "movie.en.srt"]) (str "movie.mkv")
      (CleanCaptions GOOS.unix (onlyFiles [str "movie.en.srt"]) (str "movie.mkv")
        (str "en|fr")).1 = (str "en", true) := by
  refine ⟨?_, by decide⟩
  rw [cleaned_eq_Join os stat fn (CleanCaptions os stat fn captions).1,
    cleaned_eq_Join os stat fn captions]
  generalize hF : (Split captions CaptionSep).filter
    (fun l => l != [] && backed os stat fn l) = F
  by_cases hnil : F = []
  · subst hnil
    simp [Join, Split]
  · have hsub : F.Sublist (Split captions CaptionSep) := by
      rw [← hF]
      exact List.filter_sublist _
    have hsep : ∀ l ∈ F, CaptionSep ∉ l := fun l hl =>
      mem_Split_no_sep captions CaptionSep l (hsub.subset hl)
    rw [Split_Join F CaptionSep hnil hsep]
    congr 1
    rw [List.filter_eq_self]
    intro l hl
    rw [← hF] at hl
    exact (List.mem_filter.1 hl).2

theorem Join_cons_ne_nil (a : GoString) (rest : List GoString) (sep : UInt8)
    (h : rest ≠ []) : Join (a :: rest) sep = a ++ sep :: Join rest sep := by
  cases rest with
  | nil => exact absurd rfl h
  | cons b rest => rfl

theorem Join_cons_cons (c : UInt8) (a : GoString) (rest : List GoString) (sep : UInt8) :
    Join ((c :: a) :: rest) sep = c :: Join (a :: rest) sep := by
  cases rest with
  | nil => rfl
  | cons b rest => rfl

/-- Joining the pieces of a split gives the string back. -/
theorem Join_Split (s : GoString) (sep : UInt8) : Join (Split s sep) sep = s := by
  induction s with
  | nil => rfl
  | cons c cs ih =>
    unfold Split
    split
    · rename_i hc
      rw [Join_cons_ne_nil _ _ _ (Split_ne_nil cs sep), ih, hc]
      rfl
    · cases hs : Split cs sep with
      | nil => exact absurd hs (Split_ne_nil cs sep)
      | cons piece pieces =>
        rw [hs] at ih
        simp only
        rw [Join_cons_cons, ih]

theorem changed_eq_any (os : GOOS) (stat : GoString → Bool) (fn captions : GoString) :
    (CleanCaptions os stat fn captions).2 =
      (Split captions CaptionSep).any
        (fun l => !stat (GetCaptionPath os fn l (str "vtt"))) := by
  have h := (cleanLangs_spec os stat fn (Split captions CaptionSep)
    { cleanedCaptions := [], changed := false, found := false, probed := [] }).2.1
  simp only [CleanCaptions, cleanRun]
  rw [h]
  simp

/-- C17: for a well-formed caption set (empty, or without an empty piece), an
unset changed flag means that the cleaned set is the input set. -/
theorem CleanCaptions_unchanged (os : GOOS) (stat : GoString → Bool)
    (fn captions : GoString) (hwf : isWellFormedSet captions = true)
    (hch : (CleanCaptions os stat fn captions).2 = false) :
    (CleanCaptions os stat fn captions).1 = captions := by
  rw [changed_eq_any, List.any_eq_false] at hch
  have hbacked : ∀ l ∈ Split captions CaptionSep, backed os stat fn l = true := by
    intro l hl
    have h := hch l hl
    simp only [Bool.not_eq_true, Bool.not_eq_false_eq_eq_true, Bool.not_eq_eq_eq_not,
      Bool.not_true, Bool.not_false] at h
    simp [backed, CaptionExts, h]
  rw [cleaned_eq_Join]
  unfold isWellFormedSet at hwf
  simp only [Bool.or_eq_true, beq_iff_eq, List.all_eq_true, bne_iff_ne, ne_eq] at hwf
  rcases hwf with rfl | hne
  · simp [Split, Join]
  · rw [List.filter_eq_self.2 (by
      intro l hl
      simp only [Bool.and_eq_true, bne_iff_ne, ne_eq]
      exact ⟨hne l hl, hbacked l hl⟩)]
    exact Join_Split captions CaptionSep

/-- Witness of C17: `en|fr` on `movie.mkv` with both vtt files on disk. -/
theorem CleanCaptions_unchanged_witness :
    (CleanCaptions GOOS.unix (onlyFiles [str "movie.en.vtt", str "movie.fr.vtt"])
      (str "movie.mkv") (str "en|fr")).1 = str "en|fr" :=
  CleanCaptions_unchanged GOOS.unix (onlyFiles [str "movie.en.vtt", str "movie.fr.vtt"])
    (str "movie.mkv") (str "en|fr") (by decide) (by decide)

/-- C18: adding a non-empty code without the separator changes membership for
that code only, among non-empty codes, and the split of the result is the codes
of the set followed by the added code. -/
theorem IsLangInCaptions_AddLangToCaptions_iff (lang captions m : GoString)
    (h0 : lang ≠ []) (hsep : CaptionSep ∉ lang) (hm : m ≠ []) :
    (IsLangInCaptions m (AddLangToCaptions lang captions) = true ↔
      (IsLangInCaptions m captions = true ∨ m = lang)) ∧
    Split (AddLangToCaptions lang captions) CaptionSep = codesOf captions ++ [lang] ∧
    (Split (AddLangToCaptions lang captions) CaptionSep).filter (fun l => l != []) =
      (Split captions CaptionSep).filter (fun l => l != []) ++ [lang] := by
  refine ⟨?_, Split_AddLangToCaptions lang captions h0 hsep, ?_⟩
  · unfold IsLangInCaptions
    rw [Split_AddLangToCaptions lang captions h0 hsep]
    unfold codesOf
    have hlast : ([lang].any (fun l => l == m) = true) ↔ m = lang := by
      simp only [List.any_cons, List.any_nil, Bool.or_false, beq_iff_eq]
      exact eq_comm
    by_cases hc : captions = []
    · subst hc
      have hm' : (([] : GoString) == m) = false := by
        simp only [beq_eq_false_iff_ne, ne_eq]
        exact fun h => hm h.symm
      rw [if_pos rfl, List.nil_append, hlast]
      simp only [Split, List.any_cons, List.any_nil, Bool.or_false, hm', Bool.false_eq_true,
        false_or]
    · rw [if_neg hc, List.any_append, Bool.or_eq_true, hlast]
  · rw [Split_AddLangToCaptions lang captions h0 hsep, List.filter_append]
    have hf : List.filter (fun l => l != []) [lang] = [lang] := by simp [h0]
    rw [hf]
    congr 1
    unfold codesOf
    by_cases hc : captions = []
    · subst hc
      simp [Split]
    · rw [if_neg hc]

/-- Witness of C18: adding `de` to `en|fr` and asking for `de`. -/
theorem IsLangInCaptions_AddLangToCaptions_iff_witness :
    IsLangInCaptions (str "de") (AddLangToCaptions (str "de") (str "en|fr")) = true ∧
    Split (AddLangToCaptions (str "de") (str "en|fr")) CaptionSep =
      [str "en", str "fr", str "de"] :=
  ⟨(IsLangInCaptions_AddLangToCaptions_iff (str "de") (str "en|fr") (str "de")
      (by decide) (by decide) (by decide)).1.2 (Or.inr rfl),
   (IsLangInCaptions_AddLangToCaptions_iff (str "de") (str "en|fr") (str "de")
      (by decide) (by decide) (by decide)).2.1.trans (by decide)⟩

/-- C19: the candidates of the caption path built for an accepted language are
the caption paths built without language, one per extension, for a validator
that accepts only strings of 2 or 3 ASCII letters and a caption extension
without a dot or path separator. -/
theorem GenerateCaptionCandidates_GetCaptionPath (os : GOOS) (valid : GoString → Bool)
    (p lang ext : GoString) (exts : List GoString)
    (hshape : ∀ s, valid s = true → isLangShape s = true)
    (hvalid : valid lang = true) (hext : plainSegment os ext) :
    GenerateCaptionCandidates os valid (GetCaptionPath os p lang ext) exts =
      exts.map (fun e => GetCaptionPath os p [] e) := by
  have hls := hshape lang hvalid
  obtain ⟨hplain, hlen⟩ := langShape_plain os lang hls
  have h0 : lang ≠ [] := by
    rintro rfl
    simp at hlen
  have hne : lang ≠ LangUknown := by
    rintro rfl
    revert hls
    decide
  rw [candidates_eq_map, GetCaptionPath_lang os p lang ext h0 hne]
  simp only [Ext_dot os _ ext hext, TrimSuffix_append, Ext_dot os _ lang hplain]
  have hgt : ((46 : UInt8) :: lang).length > 2 := by
    simp only [List.length_cons]; omega
  rw [if_pos ⟨hgt, by simpa using hvalid⟩]
  apply List.map_congr_left
  intro e _
  rw [GetCaptionPath_unknown os p [] e (Or.inl rfl), str_dot]
  simp

/-- Witness of C19: `movie.mkv`, `en`, `srt` with vtt and srt. -/
theorem GenerateCaptionCandidates_GetCaptionPath_witness :
    GenerateCaptionCandidates GOOS.unix shapeValidator
      (GetCaptionPath GOOS.unix (str "movie.mkv") (str "en") (str "srt"))
      [str "vtt", str "srt"] = [str "movie.vtt", str "movie.srt"] :=
  (GenerateCaptionCandidates_GetCaptionPath GOOS.unix shapeValidator (str "movie.mkv")
    (str "en") (str "srt") [str "vtt", str "srt"] (fun _ h => h) (by decide)
    (by decide)).trans (by decide)

end Caption
